import Mathlib

/-!
# Verification of the Sumway score combination and decomposition engine

Shallow embedding of the algorithmic core of `src/src/App.tsx`:
sum generation (`calculateCartesianSum`), exact-sum decomposition search
(`findItemCombinations` / `findElementCombinations`), the balance selector
(`calculateStdDev` / `selectBalancedCombination`), hierarchy validation
(`validate`), and the application-state operations on student records.

JS numbers that may be `NaN` are modelled as `Option Int` (`none` = `NaN`);
all arithmetic the engine performs after validation is on integers.
-/

namespace Sumway

/-! ## Sum Generator (`calculateCartesianSum`, App.tsx lines 370-385) -/

/-- One step of the fold in `calculateCartesianSum`: for each running sum and
each value of the next group, emit their sum (the two nested `for` loops
pushing `sum + num`). -/
def cartesianStep (sums : List Int) (group : List Int) : List Int :=
  sums.flatMap (fun s => group.map (fun n => s + n))

/-- Deduplication keeping the first occurrence of each value, with an explicit
`seen` accumulator: the semantics of the JS `new Set(sums)` iteration order. -/
def dedupAux (seen : List Int) : List Int → List Int
  | [] => []
  | x :: xs => if x ∈ seen then dedupAux seen xs else x :: dedupAux (x :: seen) xs

/-- `[...new Set(sums)]`: deduplicate, keeping first occurrences in order. -/
def dedupFirst (l : List Int) : List Int := dedupAux [] l

/-- Stable insertion: place `x` before the first element `y` it may precede
(`le x y`). Used to model `Array.prototype.sort`, which is an unspecified but
stable sort; a stable sort of a list under a total transitive comparator is
unique, so any stable sort is a faithful model. -/
def insertSorted (le : α → α → Bool) (x : α) : List α → List α
  | [] => [x]
  | y :: ys => if le x y then x :: y :: ys else y :: insertSorted le x ys

/-- Stable sort by repeated insertion (model of `Array.prototype.sort`).
Folding from the right inserts earlier elements last, so an element is placed
before any tie that originally followed it: stability. -/
def stableSort (le : α → α → Bool) (l : List α) : List α :=
  l.foldr (insertSorted le) []

/-- The comparator `(a, b) => b - a`: `a` may come before `b` iff `b ≤ a`
(descending order). -/
def descLe (a b : Int) : Bool := decide (b ≤ a)

/-- `calculateCartesianSum` (App.tsx 370-385): empty input gives `[]`;
otherwise fold the cartesian-sum step over the groups starting from the first
group, then deduplicate and sort descending. -/
def calculateCartesianSum (sets : List (List Int)) : List Int :=
  match sets with
  | [] => []
  | g :: rest => stableSort descLe (dedupFirst (rest.foldl cartesianStep g))

/-! ## Decomposition Search (`findItemCombinations`, App.tsx 65-90, and
`findElementCombinations`, App.tsx 93-118 — two verbatim-identical copies) -/

/-- The `backtrack` closure of `findItemCombinations`: at each group try every
candidate `score`, recursing only when `currentSum + score <= targetSum`
(the prune); at the end accept iff the accumulated sum equals the target. -/
def combosAux (targetSum : Int) : List (List Int) → Int → List Int → List (List Int)
  | [], currentSum, current =>
      if currentSum = targetSum then [current] else []
  | g :: gs, currentSum, current =>
      g.flatMap (fun score =>
        if currentSum + score ≤ targetSum then
          combosAux targetSum gs (currentSum + score) (current ++ [score])
        else [])

/-- `findItemCombinations` (App.tsx 65-90). -/
def findItemCombinations (targetSum : Int) (itemResults : List (List Int)) :
    List (List Int) :=
  combosAux targetSum itemResults 0 []

/-- The `backtrack` closure of `findElementCombinations` (App.tsx 93-118),
a verbatim copy of the one in `findItemCombinations`. -/
def elemCombosAux (targetSum : Int) : List (List Int) → Int → List Int → List (List Int)
  | [], currentSum, current =>
      if currentSum = targetSum then [current] else []
  | g :: gs, currentSum, current =>
      g.flatMap (fun score =>
        if currentSum + score ≤ targetSum then
          elemCombosAux targetSum gs (currentSum + score) (current ++ [score])
        else [])

/-- `findElementCombinations` (App.tsx 93-118). -/
def findElementCombinations (targetSum : Int) (elements : List (List Int)) :
    List (List Int) :=
  elemCombosAux targetSum elements 0 []

/-! ## Choices: picking one value from each group -/

/-- `Choice groups c` holds when `c` picks exactly one value per group, in
order: the specification-side notion of a cartesian choice / decomposition. -/
def Choice (groups : List (List Int)) (c : List Int) : Prop :=
  List.Forall₂ (fun g v => v ∈ g) groups c

/-! ## Sanity checks on the spec's concrete scenarios (§8 of the spec) -/

example : calculateCartesianSum [[1, 2], [10, 20]] = [22, 21, 12, 11] := by decide
example : calculateCartesianSum [] = [] := rfl
example : calculateCartesianSum [[2, 1], [2, 1]] = [4, 3, 2] := by decide
example : findItemCombinations 21 [[1, 2], [10, 20]] = [[1, 20]] := by decide
example : findItemCombinations 5 [[1, 2], [10, 20]] = [] := by decide
example : findItemCombinations 3 [[2, 1], [2, 1]] = [[2, 1], [1, 2]] := by decide
example : findItemCombinations 0 [] = [[]] := rfl

/-! ## Lemmas: the choice predicate -/

theorem choice_nil {c : List Int} : Choice [] c ↔ c = [] :=
  List.forall₂_nil_left_iff

theorem choice_cons {g : List Int} {gs : List (List Int)} {c : List Int} :
    Choice (g :: gs) c ↔ ∃ v c₂, v ∈ g ∧ Choice gs c₂ ∧ c = v :: c₂ := by
  constructor
  · intro h
    cases h with
    | cons hv hc => exact ⟨_, _, hv, hc, rfl⟩
  · rintro ⟨v, c₂, hv, hc, rfl⟩
    exact List.Forall₂.cons hv hc

/-! ## Lemmas: stable sort -/

theorem insertSorted_perm (le : α → α → Bool) (x : α) (l : List α) :
    List.Perm (insertSorted le x l) (x :: l) := by
  induction l with
  | nil => exact List.Perm.refl [x]
  | cons y ys ih =>
    simp only [insertSorted]
    split
    · exact List.Perm.refl _
    · exact (ih.cons y).trans (List.Perm.swap x y ys)

theorem stableSort_perm (le : α → α → Bool) (l : List α) :
    List.Perm (stableSort le l) l := by
  induction l with
  | nil => exact List.Perm.refl []
  | cons a l ih =>
    exact (insertSorted_perm le a (stableSort le l)).trans (ih.cons a)

theorem mem_stableSort (le : α → α → Bool) (l : List α) (x : α) :
    x ∈ stableSort le l ↔ x ∈ l :=
  (stableSort_perm le l).mem_iff

theorem pairwise_insertSorted (le : α → α → Bool)
    (htrans : ∀ a b c, le a b = true → le b c = true → le a c = true)
    (htotal : ∀ a b, le a b = true ∨ le b a = true)
    (x : α) (l : List α) (h : l.Pairwise (fun a b => le a b = true)) :
    (insertSorted le x l).Pairwise (fun a b => le a b = true) := by
  induction l with
  | nil => simp [insertSorted]
  | cons y ys ih =>
    rcases List.pairwise_cons.1 h with ⟨hy, hys⟩
    simp only [insertSorted]
    split
    · next hxy =>
      refine List.pairwise_cons.2 ⟨?_, h⟩
      intro z hz
      rcases List.mem_cons.1 hz with hzy | hz
      · rw [hzy]
        exact hxy
      · exact htrans x y z hxy (hy z hz)
    · next hxy =>
      refine List.pairwise_cons.2 ⟨?_, ih hys⟩
      intro z hz
      rcases List.mem_cons.1 ((insertSorted_perm le x ys).mem_iff.1 hz) with hzx | hz
      · rw [hzx]
        rcases htotal x y with hc | hc
        · exact absurd hc hxy
        · exact hc
      · exact hy z hz

theorem pairwise_stableSort (le : α → α → Bool)
    (htrans : ∀ a b c, le a b = true → le b c = true → le a c = true)
    (htotal : ∀ a b, le a b = true ∨ le b a = true) (l : List α) :
    (stableSort le l).Pairwise (fun a b => le a b = true) := by
  induction l with
  | nil => simp [stableSort]
  | cons a l ih => exact pairwise_insertSorted le htrans htotal a _ ih

/-! ## Lemmas: deduplication -/

theorem mem_dedupAux {y : Int} : ∀ (seen l : List Int),
    y ∈ dedupAux seen l ↔ y ∈ l ∧ y ∉ seen := by
  intro seen l
  induction l generalizing seen with
  | nil => simp [dedupAux]
  | cons x xs ih =>
    simp only [dedupAux]
    split
    · next hx =>
      rw [ih, List.mem_cons]
      constructor
      · rintro ⟨h1, h2⟩
        exact ⟨Or.inr h1, h2⟩
      · rintro ⟨h1 | h1, h2⟩
        · exact absurd (h1 ▸ hx) h2
        · exact ⟨h1, h2⟩
    · next hx =>
      simp only [List.mem_cons]
      rw [ih]
      simp only [List.mem_cons]
      constructor
      · rintro (rfl | ⟨h1, h2⟩)
        · exact ⟨Or.inl rfl, hx⟩
        · exact ⟨Or.inr h1, fun hc => h2 (Or.inr hc)⟩
      · rintro ⟨h1 | h1, h2⟩
        · exact Or.inl h1
        · by_cases hyx : y = x
          · exact Or.inl hyx
          · exact Or.inr ⟨h1, fun hc => hc.elim hyx h2⟩

theorem nodup_dedupAux : ∀ (seen l : List Int), (dedupAux seen l).Nodup := by
  intro seen l
  induction l generalizing seen with
  | nil => simp [dedupAux]
  | cons x xs ih =>
    simp only [dedupAux]
    split
    · exact ih seen
    · refine List.nodup_cons.2 ⟨fun hc => ?_, ih (x :: seen)⟩
      exact ((mem_dedupAux (x :: seen) xs).1 hc).2 (List.mem_cons.2 (Or.inl rfl))

theorem mem_dedupFirst {l : List Int} {y : Int} : y ∈ dedupFirst l ↔ y ∈ l := by
  rw [dedupFirst, mem_dedupAux]
  simp

theorem nodup_dedupFirst (l : List Int) : (dedupFirst l).Nodup :=
  nodup_dedupAux [] l

/-! ## Lemmas: membership in the generated sum set -/

theorem mem_cartesianStep {x : Int} {sums group : List Int} :
    x ∈ cartesianStep sums group ↔ ∃ s ∈ sums, ∃ n ∈ group, s + n = x := by
  simp [cartesianStep]

theorem mem_foldl_cartesianStep :
    ∀ (rest : List (List Int)) (init : List Int) (x : Int),
      x ∈ rest.foldl cartesianStep init ↔
        ∃ s ∈ init, ∃ c, Choice rest c ∧ s + c.sum = x := by
  intro rest
  induction rest with
  | nil =>
    intro init x
    simp [choice_nil]
  | cons g gs ih =>
    intro init x
    rw [List.foldl_cons, ih]
    constructor
    · rintro ⟨s, hs, c, hc, rfl⟩
      rcases mem_cartesianStep.1 hs with ⟨s0, hs0, n, hn, rfl⟩
      exact ⟨s0, hs0, n :: c, choice_cons.2 ⟨n, c, hn, hc, rfl⟩, by simp [add_assoc]⟩
    · rintro ⟨s0, hs0, c, hc, rfl⟩
      rcases choice_cons.1 hc with ⟨n, c₂, hn, hc₂, rfl⟩
      exact ⟨s0 + n, mem_cartesianStep.2 ⟨s0, hs0, n, hn, rfl⟩, c₂, hc₂,
        by simp [add_assoc]⟩

/-- Master membership characterization of `calculateCartesianSum`: a value is
in the output iff the input is non-empty and the value is the sum of a choice
of one value per group. -/
theorem mem_calculateCartesianSum {sets : List (List Int)} {x : Int} :
    x ∈ calculateCartesianSum sets ↔ sets ≠ [] ∧ ∃ c, Choice sets c ∧ c.sum = x := by
  cases sets with
  | nil => simp [calculateCartesianSum]
  | cons g rest =>
    rw [calculateCartesianSum, mem_stableSort, mem_dedupFirst, mem_foldl_cartesianStep]
    simp only [ne_eq, reduceCtorEq, not_false_eq_true, true_and]
    constructor
    · rintro ⟨s, hs, c, hc, rfl⟩
      exact ⟨s :: c, choice_cons.2 ⟨s, c, hs, hc, rfl⟩, rfl⟩
    · rintro ⟨c, hc, rfl⟩
      rcases choice_cons.1 hc with ⟨s, c₂, hs, hc₂, rfl⟩
      exact ⟨s, hs, c₂, hc₂, rfl⟩

theorem descLe_trans : ∀ a b c : Int, descLe a b = true → descLe b c = true →
    descLe a c = true := by
  intro a b c h1 h2
  simp only [descLe, decide_eq_true_eq] at *
  exact le_trans h2 h1

theorem descLe_total : ∀ a b : Int, descLe a b = true ∨ descLe b a = true := by
  intro a b
  simp only [descLe, decide_eq_true_eq]
  exact le_total b a

/-- The output of `calculateCartesianSum` is strictly descending (hence also
duplicate-free). -/
theorem calculateCartesianSum_sorted (sets : List (List Int)) :
    (calculateCartesianSum sets).Pairwise (· > ·) := by
  cases sets with
  | nil => simp [calculateCartesianSum]
  | cons g rest =>
    rw [calculateCartesianSum]
    have hsorted := pairwise_stableSort descLe descLe_trans descLe_total
      (dedupFirst (rest.foldl cartesianStep g))
    have hnodup : (stableSort descLe (dedupFirst (rest.foldl cartesianStep g))).Nodup :=
      (stableSort_perm descLe _).nodup_iff.2 (nodup_dedupFirst _)
    have := hsorted.and hnodup
    refine this.imp ?_
    rintro a b ⟨h1, h2⟩
    simp only [descLe, decide_eq_true_eq] at h1
    exact lt_of_le_of_ne h1 (fun hc => h2 hc.symm)

/-! ## Lemmas: choices, positivity, decomposition search -/

theorem choice_length {gs : List (List Int)} {c : List Int} (h : Choice gs c) :
    c.length = gs.length :=
  h.length_eq.symm

theorem choice_all_pos : ∀ {gs : List (List Int)} {c : List Int},
    (∀ g ∈ gs, ∀ v ∈ g, 0 < v) → Choice gs c → ∀ x ∈ c, 0 < x := by
  intro gs
  induction gs with
  | nil =>
    intro c _ hch
    rcases choice_nil.1 hch with rfl
    simp
  | cons g gs ih =>
    intro c hpos hch
    rcases choice_cons.1 hch with ⟨v, c₂, hv, hc₂, rfl⟩
    intro x hx
    rcases List.mem_cons.1 hx with hxv | hx
    · rw [hxv]
      exact hpos g (List.mem_cons.2 (Or.inl rfl)) v hv
    · exact ih (fun g' hg' => hpos g' (List.mem_cons.2 (Or.inr hg'))) hc₂ x hx

theorem combosAux_sound :
    ∀ (gs : List (List Int)) (t acc : Int) (cur c : List Int),
      c ∈ combosAux t gs acc cur →
      ∃ c₂, c = cur ++ c₂ ∧ Choice gs c₂ ∧ acc + c₂.sum = t := by
  intro gs
  induction gs with
  | nil =>
    intro t acc cur c hc
    simp only [combosAux] at hc
    split at hc
    · next heq =>
      rcases List.mem_singleton.1 hc with rfl
      exact ⟨[], by simp, choice_nil.2 rfl, by simpa using heq⟩
    · simp at hc
  | cons g gs ih =>
    intro t acc cur c hc
    simp only [combosAux, List.mem_flatMap] at hc
    rcases hc with ⟨v, hv, hc⟩
    split at hc
    · next hle =>
      rcases ih t (acc + v) (cur ++ [v]) c hc with ⟨c₂, rfl, hch, hsum⟩
      refine ⟨v :: c₂, by simp, choice_cons.2 ⟨v, c₂, hv, hch, rfl⟩, ?_⟩
      rw [List.sum_cons, ← add_assoc]
      exact hsum
    · simp at hc

theorem combosAux_complete :
    ∀ (gs : List (List Int)) (t acc : Int) (cur c₂ : List Int),
      (∀ g ∈ gs, ∀ v ∈ g, 0 < v) →
      Choice gs c₂ → acc + c₂.sum = t →
      cur ++ c₂ ∈ combosAux t gs acc cur := by
  intro gs
  induction gs with
  | nil =>
    intro t acc cur c₂ _ hch hsum
    rcases choice_nil.1 hch with rfl
    simp only [combosAux]
    rw [if_pos (by simpa using hsum)]
    simp
  | cons g gs ih =>
    intro t acc cur c₂ hpos hch hsum
    rcases choice_cons.1 hch with ⟨v, c₃, hv, hch₃, rfl⟩
    simp only [combosAux, List.mem_flatMap]
    refine ⟨v, hv, ?_⟩
    have hsum₃ : acc + v + c₃.sum = t := by
      rw [List.sum_cons] at hsum
      linarith
    have hnonneg : 0 ≤ c₃.sum :=
      List.sum_nonneg (fun x hx => le_of_lt
        (choice_all_pos (fun g' hg' => hpos g' (List.mem_cons.2 (Or.inr hg'))) hch₃ x hx))
    rw [if_pos (by linarith)]
    have := ih t (acc + v) (cur ++ [v]) c₃
      (fun g' hg' => hpos g' (List.mem_cons.2 (Or.inr hg'))) hch₃ hsum₃
    simpa using this

/-- Exactness of the decomposition search over groups of positive values:
the returned combinations are precisely the choices of one value per group
summing to the target. -/
theorem findItemCombinations_iff (t : Int) (groups : List (List Int))
    (hpos : ∀ g ∈ groups, ∀ v ∈ g, 0 < v) (c : List Int) :
    c ∈ findItemCombinations t groups ↔ Choice groups c ∧ c.sum = t := by
  rw [findItemCombinations]
  constructor
  · intro hc
    rcases combosAux_sound groups t 0 [] c hc with ⟨c₂, rfl, hch, hsum⟩
    exact ⟨hch, by linarith⟩
  · rintro ⟨hch, hsum⟩
    have := combosAux_complete groups t 0 [] c hpos hch (by simpa using hsum)
    simpa using this

/-! ## Lemmas: transporting choices along a permutation of the groups -/

theorem choice_sum_perm : ∀ {gs gs' : List (List Int)}, List.Perm gs gs' →
    ∀ {s : Int}, (∃ c, Choice gs c ∧ c.sum = s) → ∃ c, Choice gs' c ∧ c.sum = s := by
  intro gs gs' h
  induction h with
  | nil => exact fun h => h
  | cons g hp ih =>
    rintro s ⟨c, hc, rfl⟩
    rcases choice_cons.1 hc with ⟨v, c₂, hv, hc₂, rfl⟩
    rcases ih ⟨c₂, hc₂, rfl⟩ with ⟨c₃, hc₃, hsum⟩
    refine ⟨v :: c₃, choice_cons.2 ⟨v, c₃, hv, hc₃, rfl⟩, ?_⟩
    rw [List.sum_cons, List.sum_cons, hsum]
  | swap g₁ g₂ l =>
    rintro s ⟨c, hc, rfl⟩
    rcases choice_cons.1 hc with ⟨v₁, c₂, hv₁, hc₂, rfl⟩
    rcases choice_cons.1 hc₂ with ⟨v₂, c₃, hv₂, hc₃, rfl⟩
    refine ⟨v₂ :: v₁ :: c₃,
      choice_cons.2 ⟨v₂, v₁ :: c₃, hv₂, choice_cons.2 ⟨v₁, c₃, hv₁, hc₃, rfl⟩, rfl⟩, ?_⟩
    simp only [List.sum_cons]
    ring
  | trans h1 h2 ih1 ih2 => exact fun h => ih2 (ih1 h)

/-- Two strictly descending lists with the same members are equal. -/
theorem eq_of_pairwise_gt_of_mem_iff {l₁ l₂ : List Int}
    (h₁ : l₁.Pairwise (· > ·)) (h₂ : l₂.Pairwise (· > ·))
    (hmem : ∀ x, x ∈ l₁ ↔ x ∈ l₂) : l₁ = l₂ := by
  haveI : IsAntisymm Int (· > ·) := ⟨fun a b hab hba => absurd hba (lt_asymm hab)⟩
  have hd₁ : l₁.Nodup := h₁.imp (fun h => ne_of_gt h)
  have hd₂ : l₂.Nodup := h₂.imp (fun h => ne_of_gt h)
  exact List.eq_of_perm_of_sorted ((List.perm_ext_iff_of_nodup hd₁ hd₂).2 hmem) h₁ h₂

/-! ## Claim theorems: C1, C2, C9, C10, C3 -/

/-- C1: for every non-empty sequence of non-empty groups of integers,
`calculateCartesianSum` returns exactly the set of sums obtainable by picking
one value from each group (soundness and completeness), with no duplicates,
sorted descending (`Pairwise (· > ·)` is strict descent, which implies both). -/
theorem calculateCartesianSum_exact (groups : List (List Int))
    (hne : groups ≠ []) (_hgne : ∀ g ∈ groups, g ≠ []) :
    (∀ s : Int, s ∈ calculateCartesianSum groups ↔
      ∃ c, Choice groups c ∧ c.sum = s) ∧
    (calculateCartesianSum groups).Pairwise (· > ·) := by
  refine ⟨fun s => ?_, calculateCartesianSum_sorted groups⟩
  rw [mem_calculateCartesianSum]
  exact and_iff_right hne

/-- Witness for C1 at the spec's concrete scenario `[[1,2],[10,20]]`. -/
theorem calculateCartesianSum_exact_witness :
    ((21 : Int) ∈ calculateCartesianSum [[1, 2], [10, 20]] ↔
      ∃ c, Choice [[1, 2], [10, 20]] c ∧ c.sum = 21) ∧
    (calculateCartesianSum [[1, 2], [10, 20]]).Pairwise (· > ·) := by
  have h := calculateCartesianSum_exact [[1, 2], [10, 20]] (by decide) (by decide)
  exact ⟨h.1 21, h.2⟩

/-- C2: over groups of positive integers, `findItemCombinations` returns
exactly the choices of one value per group summing to the target; in
particular the `currentSum + score <= targetSum` prune loses no solution. -/
theorem findItemCombinations_exact (t : Int) (groups : List (List Int))
    (hpos : ∀ g ∈ groups, ∀ v ∈ g, 0 < v) (c : List Int) :
    c ∈ findItemCombinations t groups ↔ Choice groups c ∧ c.sum = t :=
  findItemCombinations_iff t groups hpos c

/-- Witness for C2 at the spec's concrete scenario:
`decompose(21, [[1,2],[10,20]])` contains exactly the choice `[1, 20]`. -/
theorem findItemCombinations_exact_witness :
    ([1, 20] ∈ findItemCombinations 21 [[1, 2], [10, 20]] ↔
      Choice [[1, 2], [10, 20]] [1, 20] ∧ ([1, 20] : List Int).sum = 21) :=
  findItemCombinations_exact 21 [[1, 2], [10, 20]] (by decide) [1, 20]

/-- C9: `calculateCartesianSum` is order-independent: permuting the group
sequence yields the same output list (same set, and the output is the unique
strictly-descending enumeration of that set). -/
theorem calculateCartesianSum_order_independent (gs gs' : List (List Int))
    (h : List.Perm gs gs') :
    calculateCartesianSum gs = calculateCartesianSum gs' := by
  refine eq_of_pairwise_gt_of_mem_iff (calculateCartesianSum_sorted gs)
    (calculateCartesianSum_sorted gs') (fun x => ?_)
  rw [mem_calculateCartesianSum, mem_calculateCartesianSum]
  have hne_iff : gs ≠ [] ↔ gs' ≠ [] := by
    constructor
    · intro hne hnil
      rw [hnil] at h
      exact hne h.eq_nil
    · intro hne hnil
      rw [hnil] at h
      exact hne h.symm.eq_nil
  constructor
  · rintro ⟨hne, hex⟩
    exact ⟨hne_iff.1 hne, choice_sum_perm h hex⟩
  · rintro ⟨hne, hex⟩
    exact ⟨hne_iff.2 hne, choice_sum_perm h.symm hex⟩

/-- Witness for C9 at a concrete permutation. -/
theorem calculateCartesianSum_order_independent_witness :
    calculateCartesianSum [[1], [2, 3]] = calculateCartesianSum [[2, 3], [1]] :=
  calculateCartesianSum_order_independent [[1], [2, 3]] [[2, 3], [1]]
    (List.Perm.swap [2, 3] [1] [])

/-- The two copies of the backtracking closure are extensionally equal. -/
theorem combosAux_eq_elemCombosAux :
    ∀ (gs : List (List Int)) (t acc : Int) (cur : List Int),
      combosAux t gs acc cur = elemCombosAux t gs acc cur := by
  intro gs
  induction gs with
  | nil =>
    intro t acc cur
    rfl
  | cons g gs ih =>
    intro t acc cur
    simp only [combosAux, elemCombosAux]
    congr 1
    funext score
    split
    · exact ih t (acc + score) (cur ++ [score])
    · rfl

/-- C10: `findItemCombinations` and `findElementCombinations` are two
verbatim-identical functions and return identical results on all inputs. -/
theorem findItemCombinations_eq_findElementCombinations
    (t : Int) (groups : List (List Int)) :
    findItemCombinations t groups = findElementCombinations t groups :=
  combosAux_eq_elemCombosAux groups t 0 []

/-- Every member of a cartesian sum over groups of positive values is
positive. -/
theorem mem_calculateCartesianSum_pos {sets : List (List Int)} {x : Int}
    (hpos : ∀ g ∈ sets, ∀ v ∈ g, 0 < v) (hx : x ∈ calculateCartesianSum sets) :
    0 < x := by
  rcases mem_calculateCartesianSum.1 hx with ⟨hne, c, hch, rfl⟩
  refine List.sum_pos c (choice_all_pos hpos hch) ?_
  intro hcnil
  rw [hcnil] at hch
  have hlen := choice_length hch
  simp only [List.length_nil] at hlen
  exact hne (List.length_eq_zero.1 hlen.symm)

/-- C3: round-trip between generation and decomposition. For a hierarchy of
positive integers, with `perItemSums = items.map calculateCartesianSum` and
`totalSums = calculateCartesianSum perItemSums` (exactly what
`calculateCombinations` computes), every `s ∈ totalSums` has a non-empty
decomposition over `perItemSums`, and every returned decomposition sums
to `s`. -/
theorem roundTrip_totalSums (items : List (List (List Int)))
    (hpos : ∀ it ∈ items, ∀ g ∈ it, ∀ v ∈ g, 0 < v) :
    ∀ s ∈ calculateCartesianSum (items.map calculateCartesianSum),
      findItemCombinations s (items.map calculateCartesianSum) ≠ [] ∧
      ∀ c ∈ findItemCombinations s (items.map calculateCartesianSum), c.sum = s := by
  intro s hs
  have hpos' : ∀ g ∈ items.map calculateCartesianSum, ∀ v ∈ g, 0 < v := by
    intro g hg v hv
    rcases List.mem_map.1 hg with ⟨it, hit, rfl⟩
    exact mem_calculateCartesianSum_pos (hpos it hit) hv
  rcases mem_calculateCartesianSum.1 hs with ⟨hne, c, hch, rfl⟩
  constructor
  · intro hempty
    have hmem := (findItemCombinations_iff c.sum (items.map calculateCartesianSum)
      hpos' c).2 ⟨hch, rfl⟩
    rw [hempty] at hmem
    simp at hmem
  · intro c₂ hc₂
    exact ((findItemCombinations_iff c.sum (items.map calculateCartesianSum)
      hpos' c₂).1 hc₂).2

/-- Witness for C3 at the spec's concrete scenario — one item with elements
`[1,2]` and `[10,20]` — instantiated at the reachable total `21`. -/
theorem roundTrip_totalSums_witness :
    findItemCombinations 21 ([[[1, 2], [10, 20]]].map calculateCartesianSum) ≠ [] ∧
    ∀ c ∈ findItemCombinations 21 ([[[1, 2], [10, 20]]].map calculateCartesianSum),
      c.sum = 21 :=
  roundTrip_totalSums [[[1, 2], [10, 20]]] (by decide) 21 (by decide)

/-! ## Balance Selector (`calculateStdDev` App.tsx 121-126,
`selectBalancedCombination` App.tsx 129-145) -/

/-- The square of `calculateStdDev` (App.tsx 121-126), computed exactly in
`ℚ`: the mean of the squared deviations from the arithmetic mean (`0` for an
empty list). `calculateStdDev` returns `Math.sqrt` of this; the square root
is strictly monotone on nonnegative reals, so comparing standard deviations
is the same as comparing these squares and the sort below is unaffected. -/
def stdDevSq (arr : List Int) : ℚ :=
  if arr.length = 0 then 0
  else
    ((arr.map (fun x => ((x : ℚ) - (arr.map (fun y : Int => (y : ℚ))).sum / arr.length) ^ 2)).sum)
      / arr.length

/-- The comparator `(a, b) => a.stdDev - b.stdDev`: ascending by standard
deviation, equivalently by its square. -/
def balanceLe (a b : List Int) : Bool := decide (stdDevSq a ≤ stdDevSq b)

/-- `withStdDev.sort((a, b) => a.stdDev - b.stdDev)`: the candidates sorted
ascending by standard deviation, stably (ties keep original relative
order). -/
def sortedByBalance (combinations : List (List Int)) : List (List Int) :=
  stableSort balanceLe combinations

/-- `Math.max(1, Math.ceil(length * 0.3))`: in exact arithmetic
`⌈3·n/10⌉ = (3·n + 9) / 10` with natural division. -/
def topCount (n : Nat) : Nat := max 1 ((3 * n + 9) / 10)

/-- `selectBalancedCombination` (App.tsx 129-145). The random draw
`Math.floor(Math.random() * topCombinations.length)` is modelled by the
parameter `k`: as `k` ranges over `Nat`, `k % topCombinations.length` ranges
over exactly the indices the draw can produce. -/
def selectBalancedCombination (k : Nat) (combinations : List (List Int)) : List Int :=
  if combinations.length = 0 then []
  else if combinations.length = 1 then combinations.headD []
  else
    (sortedByBalance combinations).take (topCount combinations.length)
      |>.getD (k % ((sortedByBalance combinations).take (topCount combinations.length)).length) []

theorem topCount_pos (n : Nat) : 0 < topCount n :=
  lt_of_lt_of_le Nat.one_pos (le_max_left 1 ((3 * n + 9) / 10))

theorem length_sortedByBalance (l : List (List Int)) :
    (sortedByBalance l).length = l.length :=
  (stableSort_perm balanceLe l).length_eq

theorem getD_mem_of_lt {l : List α} {n : Nat} {d : α} (h : n < l.length) :
    l.getD n d ∈ l := by
  simp only [List.getD_eq_getElem?_getD, List.getElem?_eq_getElem h, Option.getD_some]
  exact List.getElem_mem h

/-- The selected combination always lies in the top-fraction prefix of the
sorted candidate list. -/
theorem selectBalanced_mem_top (k : Nat) (combinations : List (List Int))
    (hne : combinations ≠ []) :
    selectBalancedCombination k combinations ∈
      (sortedByBalance combinations).take (topCount combinations.length) := by
  rw [selectBalancedCombination]
  have hlen : combinations.length ≠ 0 := fun h => hne (List.length_eq_zero.1 h)
  rw [if_neg hlen]
  by_cases h1 : combinations.length = 1
  · rw [if_pos h1]
    rcases List.length_eq_one.1 h1 with ⟨c, rfl⟩
    show c ∈ (sortedByBalance [c]).take (topCount 1)
    have : sortedByBalance [c] = [c] := rfl
    rw [this]
    simp [topCount]
  · rw [if_neg h1]
    apply getD_mem_of_lt
    apply Nat.mod_lt
    rw [List.length_take, length_sortedByBalance]
    exact lt_min (topCount_pos combinations.length) (Nat.pos_of_ne_zero hlen)

/-- The selected combination is always one of the input candidates. -/
theorem selectBalanced_mem (k : Nat) (combinations : List (List Int))
    (hne : combinations ≠ []) :
    selectBalancedCombination k combinations ∈ combinations :=
  (stableSort_perm balanceLe combinations).mem_iff.1
    (List.take_subset _ _ (selectBalanced_mem_top k combinations hne))

/-- C5: for a non-empty candidate list and any value of the random draw,
`selectBalancedCombination` returns one of its inputs unchanged; a singleton
input is returned directly; and the returned candidate always lies within
the first `max(1, ceil(0.3 × count))` positions of the candidates stably
sorted ascending by (squared) population standard deviation. -/
theorem selectBalancedCombination_spec (combinations : List (List Int)) (k : Nat)
    (hne : combinations ≠ []) :
    selectBalancedCombination k combinations ∈ combinations ∧
    (∀ c, combinations = [c] → selectBalancedCombination k combinations = c) ∧
    selectBalancedCombination k combinations ∈
      (sortedByBalance combinations).take (topCount combinations.length) := by
  refine ⟨selectBalanced_mem k combinations hne, ?_,
    selectBalanced_mem_top k combinations hne⟩
  rintro c rfl
  rfl

/-- Witness for C5: four candidates (top fraction of size 2), drawn at
`k = 5`. -/
theorem selectBalancedCombination_spec_witness :
    selectBalancedCombination 5 [[0, 10], [4, 6], [5, 5], [1, 9]] ∈
      ([[0, 10], [4, 6], [5, 5], [1, 9]] : List (List Int)) ∧
    (∀ c, ([[0, 10], [4, 6], [5, 5], [1, 9]] : List (List Int)) = [c] →
      selectBalancedCombination 5 [[0, 10], [4, 6], [5, 5], [1, 9]] = c) ∧
    selectBalancedCombination 5 [[0, 10], [4, 6], [5, 5], [1, 9]] ∈
      (sortedByBalance [[0, 10], [4, 6], [5, 5], [1, 9]]).take
        (topCount ([[0, 10], [4, 6], [5, 5], [1, 9]] : List (List Int)).length) :=
  selectBalancedCombination_spec [[0, 10], [4, 6], [5, 5], [1, 9]] 5 (by decide)

/-! ## Application state (App.tsx 48-62, 148-235, 279-347, 350-406)

A JS number that may be `NaN` is modelled as `Option Int` (`none` = `NaN`);
this is needed because `validate` explicitly checks `isNaN(num)`. -/

abbrev JSNum := Option Int

/-- `num <= 0 || isNaN(num)` (App.tsx 355): `NaN <= 0` is false in JS, but
`isNaN(NaN)` is true, so `none` is invalid and `some n` is invalid iff
`n ≤ 0`. -/
def isInvalidValue : JSNum → Bool
  | none => true
  | some n => decide (n ≤ 0)

/-- The hierarchy state: items, each a list of elements, each a list of
(possibly-`NaN`) numbers. -/
abbrev Hierarchy := List (List (List JSNum))

/-- The integer values of a hierarchy. After successful validation every
value is `some n`, so the `getD` default is never consulted on any input the
engine computes with. -/
def toInts (items : Hierarchy) : List (List (List Int)) :=
  items.map (fun it => it.map (fun el => el.map (fun v => v.getD 0)))

/-- The `Student` record (App.tsx 12-18). -/
structure Student where
  id : Int
  name : String
  totalScore : Option Int
  itemScores : List Int
  elementScores : List (List Int)
deriving DecidableEq

/-- The `Results` record (App.tsx 7-10). -/
structure Results where
  itemResults : List (List Int)
  totalResult : List Int
deriving DecidableEq

/-- The 1-based (item, element, value) position carried by the validation
error message (App.tsx 356-359 interpolates `i+1`, `j+1`, `k+1`). -/
structure ValError where
  item : Nat
  element : Nat
  value : Nat
deriving DecidableEq

/-- The application state: the `items`, `results`, `error`, `students`, and
`nextStudentId` `useState` cells of `App` (App.tsx 49-54). -/
structure AppState where
  items : Hierarchy
  results : Option Results
  error : Option ValError
  students : List Student
  nextStudentId : Int
deriving DecidableEq

/-! ## Validation (`validate`, App.tsx 350-367) -/

/-- 0-based index of the first invalid value of one element: the inner `k`
loop of `validate`. -/
def firstBadValue : List JSNum → Option Nat
  | [] => none
  | v :: vs => if isInvalidValue v then some 0 else (firstBadValue vs).map (fun k => k + 1)

/-- First invalid (element, value) position inside one item: the `j` loop. -/
def firstBadInItem : List (List JSNum) → Option (Nat × Nat)
  | [] => none
  | el :: els =>
    match firstBadValue el with
    | some k => some (0, k)
    | none => (firstBadInItem els).map (fun p => (p.1 + 1, p.2))

/-- First invalid (item, element, value) position: the outer `i` loop. -/
def firstBad : Hierarchy → Option (Nat × Nat × Nat)
  | [] => none
  | it :: its =>
    match firstBadInItem it with
    | some p => some (0, p.1, p.2)
    | none => (firstBad its).map (fun p => (p.1 + 1, p.2.1, p.2.2))

/-- `validate` (App.tsx 350-367): scan items, elements, values in order; at
the first invalid value report its 1-based position triple and fail
(`some e`); otherwise succeed (`none`). -/
def validate (items : Hierarchy) : Option ValError :=
  (firstBad items).map (fun p => ⟨p.1 + 1, p.2.1 + 1, p.2.2 + 1⟩)

/-! ## State operations -/

/-- `clearResults` (App.tsx 214-217). -/
def clearResults (st : AppState) : AppState :=
  { st with results := none, error := none }

/-- `addStudent` (App.tsx 148-160). -/
def addStudent (st : AppState) : AppState :=
  { st with
    students := st.students ++
      [{ id := st.nextStudentId, name := "학생 " ++ toString st.nextStudentId,
         totalScore := none, itemScores := [], elementScores := [] }],
    nextStudentId := st.nextStudentId + 1 }

/-- `removeStudent` (App.tsx 162-164). -/
def removeStudent (st : AppState) (id : Int) : AppState :=
  { st with students := st.students.filter (fun s => s.id != id) }

/-- `updateStudentTotalScore` (App.tsx 170-212). The random draws of
`selectBalancedCombination` are supplied by `rand`: draw `rand 0` picks the
item-score combination, draw `rand (i+1)` the element-score combination of
item `i`. -/
def updateStudentTotalScore (st : AppState) (id : Int) (score : Option Int)
    (rand : Nat → Nat) : AppState :=
  match score, st.results with
  | none, _ =>
    { st with students := st.students.map (fun s =>
        if s.id = id then
          { s with totalScore := none, itemScores := [], elementScores := [] }
        else s) }
  | some _, none =>
    { st with students := st.students.map (fun s =>
        if s.id = id then
          { s with totalScore := none, itemScores := [], elementScores := [] }
        else s) }
  | some sc, some results =>
    let itemCombinations := findItemCombinations sc results.itemResults
    if itemCombinations = [] then st
    else
      let selectedItemScores := selectBalancedCombination (rand 0) itemCombinations
      let elementScores := (List.range (toInts st.items).length).map (fun i =>
        selectBalancedCombination (rand (i + 1))
          (findElementCombinations (selectedItemScores.getD i 0)
            ((toInts st.items).getD i [])))
      { st with students := st.students.map (fun s =>
          if s.id = id then
            { s with totalScore := some sc, itemScores := selectedItemScores,
                     elementScores := elementScores }
          else s) }

/-- `calculateCombinations` (App.tsx 388-406): validate; on failure set the
error and return (results and students untouched); on success compute the
per-item and total sum sets, reset the student list, store the results and
clear the error. -/
def calculateCombinations (st : AppState) : AppState :=
  match validate st.items with
  | some e => { st with error := some e }
  | none =>
    let itemResults := (toInts st.items).map calculateCartesianSum
    { st with
      results := some { itemResults := itemResults,
                        totalResult := calculateCartesianSum itemResults },
      students := [], nextStudentId := 1, error := none }

/-- `addItem` (App.tsx 279-282): append a fresh item `[[0]]`. -/
def addItem (st : AppState) : AppState :=
  clearResults { st with items := st.items ++ [[[some 0]]] }

/-- `removeItem` (App.tsx 284-288): guarded no-op when only one item is
left. -/
def removeItem (st : AppState) (i : Nat) : AppState :=
  if st.items.length ≤ 1 then st
  else clearResults { st with items := st.items.eraseIdx i }

/-- `addEvaluationElement` (App.tsx 291-296): append a fresh element `[0]`
to item `i`. -/
def addEvaluationElement (st : AppState) (i : Nat) : AppState :=
  clearResults { st with items := List.modify (fun it => it ++ [[some 0]]) i st.items }

/-- `removeEvaluationElement` (App.tsx 298-304): guarded no-op when the item
has a single element. -/
def removeEvaluationElement (st : AppState) (i j : Nat) : AppState :=
  if (st.items.getD i []).length ≤ 1 then st
  else
    clearResults
      { st with items := List.modify (fun it => it.eraseIdx j) i st.items }

/-- The value `addNumber` pushes (App.tsx 311-320): when the element already
has two values and both are positive numbers, continue the arithmetic
progression; otherwise `0`. -/
def nextNumber (currentNumbers : List JSNum) : JSNum :=
  if 2 ≤ currentNumbers.length then
    match currentNumbers.getD (currentNumbers.length - 1) none,
          currentNumbers.getD (currentNumbers.length - 2) none with
    | some last, some secondLast =>
      if 0 < last ∧ 0 < secondLast then some (last + (last - secondLast))
      else some 0
    | _, _ => some 0
  else some 0

/-- `addNumber` (App.tsx 307-325). -/
def addNumber (st : AppState) (i j : Nat) : AppState :=
  clearResults
    { st with
      items := List.modify (fun it => List.modify (fun el => el ++ [nextNumber el]) j it)
        i st.items }

/-- `removeNumber` (App.tsx 327-335): guarded no-op when the element has a
single value. -/
def removeNumber (st : AppState) (i j k : Nat) : AppState :=
  if ((st.items.getD i []).getD j []).length ≤ 1 then st
  else
    clearResults
      { st with
        items := List.modify (fun it => List.modify (fun el => el.eraseIdx k) j it)
          i st.items }

/-! ## C8: structural edits -/

/-- The structural hierarchy edits: adding or removing an item, an element,
or a value. -/
inductive StructuralEdit
  | addItem
  | removeItem (i : Nat)
  | addElement (i : Nat)
  | removeElement (i j : Nat)
  | addNumber (i j : Nat)
  | removeNumber (i j k : Nat)

/-- Dispatch a structural edit to the corresponding handler. -/
def applyEdit : StructuralEdit → AppState → AppState
  | .addItem, st => addItem st
  | .removeItem i, st => removeItem st i
  | .addElement i, st => addEvaluationElement st i
  | .removeElement i j, st => removeEvaluationElement st i j
  | .addNumber i j, st => addNumber st i j
  | .removeNumber i j k, st => removeNumber st i j k

/-- A state with computed results and one student holding an assigned
score. -/
def stWithAssigned : AppState :=
  { items := [[[some 3]]],
    results := some { itemResults := [[3]], totalResult := [3] },
    error := none,
    students := [{ id := 1, name := "a", totalScore := some 3,
                   itemScores := [3], elementScores := [[3]] }],
    nextStudentId := 2 }

/-- C8 counterexample: `addItem` on a state with an assigned student clears
Results but does NOT clear the student's `itemScores`/`elementScores` — the
record still holds `itemScores = [3]`, refuting the claim that every
structural edit clears every StudentRecord's assigned scores. -/
theorem structural_edit_counterexample :
    (addItem stWithAssigned).results = none ∧
    ¬ (∀ s ∈ (addItem stWithAssigned).students,
        s.itemScores = [] ∧ s.elementScores = []) := by
  constructor
  · rfl
  · intro h
    have hmem := h { id := 1, name := "a", totalScore := some 3,
                     itemScores := [3], elementScores := [[3]] }
      (List.mem_cons.2 (Or.inl rfl))
    simp at hmem

/-- C8 (amended): a structural edit never touches the student records
(`itemScores`, `elementScores` and `totalScore` all survive unchanged); the
edit either is a guarded no-op (removing the last remaining item, element,
or value changes nothing at all) or invalidates Results — `results` becomes
unset and the error is cleared. Stale assignments are discarded only by
`calculateCombinations`, which removes every student record wholesale. -/
theorem structural_edit_behavior (e : StructuralEdit) (st : AppState) :
    (applyEdit e st).students = st.students ∧
    (applyEdit e st).nextStudentId = st.nextStudentId ∧
    (applyEdit e st = st ∨
      ((applyEdit e st).results = none ∧ (applyEdit e st).error = none)) := by
  cases e with
  | addItem => exact ⟨rfl, rfl, Or.inr ⟨rfl, rfl⟩⟩
  | removeItem i =>
    simp only [applyEdit, removeItem, clearResults]
    split
    · simp
    · simp
  | addElement i => exact ⟨rfl, rfl, Or.inr ⟨rfl, rfl⟩⟩
  | removeElement i j =>
    simp only [applyEdit, removeEvaluationElement, clearResults]
    split
    · simp
    · simp
  | addNumber i j => exact ⟨rfl, rfl, Or.inr ⟨rfl, rfl⟩⟩
  | removeNumber i j k =>
    simp only [applyEdit, removeNumber, clearResults]
    split
    · simp
    · simp

/-! ## C6: atomicity of score assignment on failure -/

/-- C6: when the item-level decomposition search for the requested score
over `results.itemResults` returns no combination, `updateStudentTotalScore`
performs no mutation at all: the whole state — in particular the student's
previous `totalScore`, `itemScores` and `elementScores` — is returned
unchanged, and no error is raised (the `error` field is part of the
unchanged state, and the operation is total). -/
theorem updateStudentTotalScore_failure_noop (st : AppState) (id : Int)
    (sc : Int) (rand : Nat → Nat) (r : Results) (hr : st.results = some r)
    (hempty : findItemCombinations sc r.itemResults = []) :
    updateStudentTotalScore st id (some sc) rand = st := by
  simp [updateStudentTotalScore, hr, hempty]

/-- Witness for C6: target `5` is not decomposable over `[[1]]`, and the
assignment leaves the state untouched. -/
theorem updateStudentTotalScore_failure_noop_witness :
    updateStudentTotalScore stWithAssigned 1 (some 5) (fun _ => 0) = stWithAssigned :=
  updateStudentTotalScore_failure_noop stWithAssigned 1 5 (fun _ => 0)
    { itemResults := [[3]], totalResult := [3] } rfl (by decide)

/-! ## C7: validation reports the first invalid position in iteration order -/

/-- The value at 0-based position (j, k) inside one item, if it exists. -/
def valueAt2 (it : List (List JSNum)) (j k : Nat) : Option JSNum :=
  match it[j]? with
  | none => none
  | some el => el[k]?

/-- The value at 0-based position (i, j, k) of the hierarchy, if it
exists. -/
def valueAt (items : Hierarchy) (i j k : Nat) : Option JSNum :=
  match items[i]? with
  | none => none
  | some it => valueAt2 it j k

theorem valueAt2_nil (j k : Nat) : valueAt2 [] j k = none := by
  simp [valueAt2]

theorem valueAt2_cons_zero (el : List JSNum) (els : List (List JSNum)) (k : Nat) :
    valueAt2 (el :: els) 0 k = el[k]? := by
  simp [valueAt2]

theorem valueAt2_cons_succ (el : List JSNum) (els : List (List JSNum)) (j k : Nat) :
    valueAt2 (el :: els) (j + 1) k = valueAt2 els j k := by
  simp [valueAt2]

theorem valueAt_nil (i j k : Nat) : valueAt [] i j k = none := by
  simp [valueAt]

theorem valueAt_cons_zero (it : List (List JSNum)) (its : Hierarchy) (j k : Nat) :
    valueAt (it :: its) 0 j k = valueAt2 it j k := by
  simp [valueAt]

theorem valueAt_cons_succ (it : List (List JSNum)) (its : Hierarchy) (i j k : Nat) :
    valueAt (it :: its) (i + 1) j k = valueAt its i j k := by
  simp [valueAt]

/-- Position `p` (0-based) exists and holds an invalid value. -/
def badAt (items : Hierarchy) (p : Nat × Nat × Nat) : Bool :=
  match valueAt items p.1 p.2.1 p.2.2 with
  | none => false
  | some v => isInvalidValue v

/-- Iteration (lexicographic) order on 0-based (element, value) positions
inside one item. -/
def lexLt2 (j k j' k' : Nat) : Prop := j < j' ∨ (j = j' ∧ k < k')

/-- Iteration (lexicographic) order on 0-based (item, element, value)
triples: the order in which `validate` visits the hierarchy. -/
def lexLt (p q : Nat × Nat × Nat) : Prop :=
  p.1 < q.1 ∨ (p.1 = q.1 ∧ lexLt2 p.2.1 p.2.2 q.2.1 q.2.2)

theorem firstBadValue_none : ∀ {el : List JSNum}, firstBadValue el = none →
    ∀ (k : Nat) (v : JSNum), el[k]? = some v → isInvalidValue v = false := by
  intro el
  induction el with
  | nil =>
    intro _ k v h
    rw [List.getElem?_nil] at h
    exact Option.noConfusion h
  | cons w ws ih =>
    intro h k v hkv
    simp only [firstBadValue] at h
    split at h
    · exact absurd h (by simp)
    · next hgood =>
      rw [Option.map_eq_none'] at h
      cases k with
      | zero =>
        rw [List.getElem?_cons_zero] at hkv
        cases Option.some.inj hkv
        simpa using hgood
      | succ k₁ =>
        rw [List.getElem?_cons_succ] at hkv
        exact ih h k₁ v hkv

theorem firstBadValue_some : ∀ {el : List JSNum} {k : Nat},
    firstBadValue el = some k →
    (∃ v : JSNum, el[k]? = some v ∧ isInvalidValue v = true) ∧
    ∀ k', k' < k → ∀ v : JSNum, el[k']? = some v → isInvalidValue v = false := by
  intro el
  induction el with
  | nil =>
    intro k h
    simp [firstBadValue] at h
  | cons w ws ih =>
    intro k h
    simp only [firstBadValue] at h
    split at h
    · next hbad =>
      cases Option.some.inj h
      refine ⟨⟨w, by simp, hbad⟩, ?_⟩
      intro k' hk'
      exact absurd hk' (Nat.not_lt_zero k')
    · next hgood =>
      rw [Option.map_eq_some'] at h
      rcases h with ⟨k₀, hk₀, rfl⟩
      rcases ih hk₀ with ⟨⟨v, hv, hbad⟩, hmin⟩
      refine ⟨⟨v, by simpa using hv, hbad⟩, ?_⟩
      intro k' hk' v' hv'
      cases k' with
      | zero =>
        rw [List.getElem?_cons_zero] at hv'
        cases Option.some.inj hv'
        simpa using hgood
      | succ k₁ =>
        rw [List.getElem?_cons_succ] at hv'
        exact hmin k₁ (by omega) v' hv'

theorem firstBadInItem_none : ∀ {it : List (List JSNum)},
    firstBadInItem it = none →
    ∀ j k v, valueAt2 it j k = some v → isInvalidValue v = false := by
  intro it
  induction it with
  | nil =>
    intro _ j k v h
    rw [valueAt2_nil] at h
    exact Option.noConfusion h
  | cons el els ih =>
    intro h j k v hv
    simp only [firstBadInItem] at h
    split at h
    · exact absurd h (by simp)
    · next hfb =>
      rw [Option.map_eq_none'] at h
      cases j with
      | zero =>
        rw [valueAt2_cons_zero] at hv
        exact firstBadValue_none hfb k v hv
      | succ j₁ =>
        rw [valueAt2_cons_succ] at hv
        exact ih h j₁ k v hv

theorem firstBadInItem_some : ∀ {it : List (List JSNum)} {j k : Nat},
    firstBadInItem it = some (j, k) →
    (∃ v, valueAt2 it j k = some v ∧ isInvalidValue v = true) ∧
    ∀ j' k', lexLt2 j' k' j k → ∀ v, valueAt2 it j' k' = some v →
      isInvalidValue v = false := by
  intro it
  induction it with
  | nil =>
    intro j k h
    simp [firstBadInItem] at h
  | cons el els ih =>
    intro j k h
    simp only [firstBadInItem] at h
    split at h
    · next k₀ hfb =>
      have hp := Option.some.inj h
      injection hp with hj hk
      subst hj
      subst hk
      rcases firstBadValue_some hfb with ⟨⟨v, hv, hbad⟩, hmin⟩
      refine ⟨⟨v, ?_, hbad⟩, ?_⟩
      · rw [valueAt2_cons_zero]
        exact hv
      intro j' k' hlt v' hv'
      rcases hlt with h1 | ⟨h1, h2⟩
      · exact absurd h1 (Nat.not_lt_zero j')
      · subst h1
        rw [valueAt2_cons_zero] at hv'
        exact hmin k' h2 v' hv'
    · next hfb =>
      rw [Option.map_eq_some'] at h
      rcases h with ⟨p₀, hp₀, heq⟩
      obtain ⟨j₀, k₀⟩ := p₀
      injection heq with hj hk
      have hj' : j₀ + 1 = j := hj
      have hk' : k₀ = k := hk
      subst hj'
      subst hk'
      rcases ih hp₀ with ⟨⟨v, hv, hbad⟩, hmin⟩
      refine ⟨⟨v, ?_, hbad⟩, ?_⟩
      · rw [valueAt2_cons_succ]
        exact hv
      intro j' k' hlt v' hv'
      cases j' with
      | zero =>
        rw [valueAt2_cons_zero] at hv'
        exact firstBadValue_none hfb k' v' hv'
      | succ j₁ =>
        rw [valueAt2_cons_succ] at hv'
        refine hmin j₁ k' ?_ v' hv'
        rcases hlt with h1 | ⟨h1, h2⟩
        · have h1' : j₁ + 1 < j₀ + 1 := h1
          exact Or.inl (by omega)
        · have h1' : j₁ + 1 = j₀ + 1 := h1
          exact Or.inr ⟨by omega, h2⟩

theorem firstBad_none : ∀ {items : Hierarchy}, firstBad items = none →
    ∀ i j k v, valueAt items i j k = some v → isInvalidValue v = false := by
  intro items
  induction items with
  | nil =>
    intro _ i j k v h
    rw [valueAt_nil] at h
    exact Option.noConfusion h
  | cons it its ih =>
    intro h i j k v hv
    simp only [firstBad] at h
    split at h
    · exact absurd h (by simp)
    · next hfb =>
      rw [Option.map_eq_none'] at h
      cases i with
      | zero =>
        rw [valueAt_cons_zero] at hv
        exact firstBadInItem_none hfb j k v hv
      | succ i₁ =>
        rw [valueAt_cons_succ] at hv
        exact ih h i₁ j k v hv

theorem firstBad_some : ∀ {items : Hierarchy} {i j k : Nat},
    firstBad items = some (i, j, k) →
    (∃ v, valueAt items i j k = some v ∧ isInvalidValue v = true) ∧
    ∀ i' j' k', lexLt (i', j', k') (i, j, k) →
      ∀ v, valueAt items i' j' k' = some v → isInvalidValue v = false := by
  intro items
  induction items with
  | nil =>
    intro i j k h
    simp [firstBad] at h
  | cons it its ih =>
    intro i j k h
    simp only [firstBad] at h
    split at h
    · next p₀ hfb =>
      obtain ⟨j₀, k₀⟩ := p₀
      have hp := Option.some.inj h
      injection hp with hi hjk
      injection hjk with hj hk
      have hi' : 0 = i := hi
      have hj' : j₀ = j := hj
      have hk' : k₀ = k := hk
      subst hi'
      subst hj'
      subst hk'
      rcases firstBadInItem_some hfb with ⟨⟨v, hv, hbad⟩, hmin⟩
      refine ⟨⟨v, ?_, hbad⟩, ?_⟩
      · rw [valueAt_cons_zero]
        exact hv
      intro i' j' k' hlt v' hv'
      rcases hlt with h1 | ⟨h1, h2⟩
      · exact absurd h1 (Nat.not_lt_zero i')
      · have h1' : i' = 0 := h1
        subst h1'
        rw [valueAt_cons_zero] at hv'
        exact hmin j' k' h2 v' hv'
    · next hfb =>
      rw [Option.map_eq_some'] at h
      rcases h with ⟨p₀, hp₀, heq⟩
      obtain ⟨i₀, j₀, k₀⟩ := p₀
      injection heq with hi hjk
      injection hjk with hj hk
      have hi' : i₀ + 1 = i := hi
      have hj' : j₀ = j := hj
      have hk' : k₀ = k := hk
      subst hi'
      subst hj'
      subst hk'
      rcases ih hp₀ with ⟨⟨v, hv, hbad⟩, hmin⟩
      refine ⟨⟨v, ?_, hbad⟩, ?_⟩
      · rw [valueAt_cons_succ]
        exact hv
      intro i' j' k' hlt v' hv'
      cases i' with
      | zero =>
        rw [valueAt_cons_zero] at hv'
        exact firstBadInItem_none hfb j' k' v' hv'
      | succ i₁ =>
        rw [valueAt_cons_succ] at hv'
        refine hmin i₁ j' k' ?_ v' hv'
        rcases hlt with h1 | ⟨h1, h2⟩
        · have h1' : i₁ + 1 < i₀ + 1 := h1
          exact Or.inl (by omega)
        · have h1' : i₁ + 1 = i₀ + 1 := h1
          exact Or.inr ⟨by omega, h2⟩

theorem badAt_true_iff {items : Hierarchy} {p : Nat × Nat × Nat} :
    badAt items p = true ↔
      ∃ v, valueAt items p.1 p.2.1 p.2.2 = some v ∧ isInvalidValue v = true := by
  unfold badAt
  split
  · next hnone =>
    simp [hnone]
  · next v hv =>
    simp [hv]

theorem badAt_false_iff {items : Hierarchy} {p : Nat × Nat × Nat} :
    badAt items p = false ↔
      ∀ v, valueAt items p.1 p.2.1 p.2.2 = some v → isInvalidValue v = false := by
  unfold badAt
  split
  · next hnone =>
    simp [hnone]
  · next v hv =>
    simp [hv]

/-- C7: if the hierarchy holds at least one invalid (≤ 0 or non-numeric)
value, validation fails, reporting exactly the first offending position in
iteration order as a 1-based (item, element, value) triple — a single
position, not all violations — and `calculateCombinations` aborts before
producing any Results: the previous results, the students and the id counter
are left unchanged; only the error is set. -/
theorem validation_reports_first_error (st : AppState) (q : Nat × Nat × Nat)
    (hq : badAt st.items q = true) :
    ∃ p : Nat × Nat × Nat,
      badAt st.items p = true ∧
      (∀ q', lexLt q' p → badAt st.items q' = false) ∧
      validate st.items = some ⟨p.1 + 1, p.2.1 + 1, p.2.2 + 1⟩ ∧
      (calculateCombinations st).results = st.results ∧
      (calculateCombinations st).students = st.students ∧
      (calculateCombinations st).nextStudentId = st.nextStudentId ∧
      (calculateCombinations st).error = some ⟨p.1 + 1, p.2.1 + 1, p.2.2 + 1⟩ := by
  cases hfb : firstBad st.items with
  | none =>
    rcases badAt_true_iff.1 hq with ⟨v, hv, hbad⟩
    rw [firstBad_none hfb q.1 q.2.1 q.2.2 v hv] at hbad
    exact absurd hbad (by simp)
  | some p =>
    rcases p with ⟨i, j, k⟩
    rcases firstBad_some hfb with ⟨⟨v, hv, hbad⟩, hmin⟩
    have hval : validate st.items = some ⟨i + 1, j + 1, k + 1⟩ := by
      rw [validate, hfb]
      rfl
    have hcc : calculateCombinations st =
        { st with error := some ⟨i + 1, j + 1, k + 1⟩ } := by
      unfold calculateCombinations
      rw [hval]
    refine ⟨(i, j, k), badAt_true_iff.2 ⟨v, hv, hbad⟩, ?_, hval, ?_, ?_, ?_, ?_⟩
    · rintro ⟨i', j', k'⟩ hlt
      exact badAt_false_iff.2 (hmin i' j' k' hlt)
    · rw [hcc]
    · rw [hcc]
    · rw [hcc]
    · rw [hcc]

/-- The spec's invalid-input scenario: item 2, element 1 holds a `0` as its
third value, with stale results present. -/
def stInvalid : AppState :=
  { items := [[[some 1, some 2]], [[some 3, some 4, some 0], [some 5]]],
    results := some { itemResults := [[2], [1]], totalResult := [3] },
    error := none,
    students := [],
    nextStudentId := 1 }

/-- Witness for C7: the spec's invalid-input scenario shape — a `0` at item
2, element 1, value 3 (1-based). -/
theorem validation_reports_first_error_witness :
    ∃ p : Nat × Nat × Nat,
      badAt stInvalid.items p = true ∧
      (∀ q', lexLt q' p → badAt stInvalid.items q' = false) ∧
      validate stInvalid.items = some ⟨p.1 + 1, p.2.1 + 1, p.2.2 + 1⟩ ∧
      (calculateCombinations stInvalid).results = stInvalid.results ∧
      (calculateCombinations stInvalid).students = stInvalid.students ∧
      (calculateCombinations stInvalid).nextStudentId = stInvalid.nextStudentId ∧
      (calculateCombinations stInvalid).error = some ⟨p.1 + 1, p.2.1 + 1, p.2.2 + 1⟩ :=
  validation_reports_first_error stInvalid (1, 0, 2) (by decide)

/-! ## C4: the student-record invariant is preserved -/

/-- Every value of the hierarchy is a positive number — the postcondition of
successful validation. -/
abbrev HierarchyPositive (items : Hierarchy) : Prop :=
  ∀ it ∈ items, ∀ el ∈ it, ∀ v ∈ el, isInvalidValue v = false

/-- The current Results were computed from the current hierarchy: exactly
what `calculateCombinations` stores on success. -/
abbrev ResultsValid (items : Hierarchy) (r : Results) : Prop :=
  r.itemResults = (toInts items).map calculateCartesianSum ∧
  r.totalResult = calculateCartesianSum r.itemResults

/-- The StudentRecord invariant of the spec: with a total score assigned,
`itemScores` sums to it and each element-score list sums to the matching
item score (entrywise, so the two lists also have equal length); with no
total score, both lists are empty. -/
def StudentInvariant (s : Student) : Prop :=
  match s.totalScore with
  | none => s.itemScores = [] ∧ s.elementScores = []
  | some t => s.itemScores.sum = t ∧
      List.Forall₂ (fun es isc => List.sum es = isc) s.elementScores s.itemScores

theorem studentInvariant_none {s : Student} (h : s.totalScore = none)
    (h1 : s.itemScores = []) (h2 : s.elementScores = []) : StudentInvariant s := by
  unfold StudentInvariant
  rw [h]
  exact ⟨h1, h2⟩

theorem studentInvariant_some {s : Student} {t : Int} (h : s.totalScore = some t)
    (h1 : s.itemScores.sum = t)
    (h2 : List.Forall₂ (fun es isc => List.sum es = isc) s.elementScores s.itemScores) :
    StudentInvariant s := by
  unfold StudentInvariant
  rw [h]
  exact ⟨h1, h2⟩

theorem toInts_pos {items : Hierarchy} (h : HierarchyPositive items) :
    ∀ it ∈ toInts items, ∀ g ∈ it, ∀ v ∈ g, 0 < v := by
  intro it hit g hg v hv
  rcases List.mem_map.1 hit with ⟨it₀, hit₀, rfl⟩
  rcases List.mem_map.1 hg with ⟨el₀, hel₀, rfl⟩
  rcases List.mem_map.1 hv with ⟨v₀, hv₀, rfl⟩
  have hval := h it₀ hit₀ el₀ hel₀ v₀ hv₀
  cases v₀ with
  | none => simp [isInvalidValue] at hval
  | some n =>
    simp only [isInvalidValue, decide_eq_false_iff_not, not_le] at hval
    simpa using hval

/-- Soundness of the decomposition search without any positivity hypothesis:
whatever it returns is a choice summing to the target. -/
theorem findItemCombinations_sound {t : Int} {groups : List (List Int)}
    {c : List Int} (hc : c ∈ findItemCombinations t groups) :
    Choice groups c ∧ c.sum = t := by
  rcases combosAux_sound groups t 0 [] c hc with ⟨c₂, rfl, hch, hsum⟩
  exact ⟨hch, by linarith⟩

/-- Exactness of the element-level search (identical code, via
`combosAux_eq_elemCombosAux`). -/
theorem findElementCombinations_iff (t : Int) (groups : List (List Int))
    (hpos : ∀ g ∈ groups, ∀ v ∈ g, 0 < v) (c : List Int) :
    c ∈ findElementCombinations t groups ↔ Choice groups c ∧ c.sum = t := by
  rw [findElementCombinations, ← combosAux_eq_elemCombosAux]
  exact findItemCombinations_iff t groups hpos c

/-- For any reachable target, the balance selector applied to the
element-level search returns a combination summing to the target. -/
theorem selectBalanced_findElement_sum (groups : List (List Int)) (t : Int)
    (k : Nat) (hpos : ∀ g ∈ groups, ∀ v ∈ g, 0 < v)
    (hreach : t ∈ calculateCartesianSum groups) :
    (selectBalancedCombination k (findElementCombinations t groups)).sum = t := by
  rcases mem_calculateCartesianSum.1 hreach with ⟨hne, ce, hce, rfl⟩
  have hmem : ce ∈ findElementCombinations ce.sum groups :=
    (findElementCombinations_iff ce.sum groups hpos ce).2 ⟨hce, rfl⟩
  have hnonempty : findElementCombinations ce.sum groups ≠ [] :=
    List.ne_nil_of_mem hmem
  have hsel := selectBalanced_mem k _ hnonempty
  exact ((findElementCombinations_iff ce.sum groups hpos _).1 hsel).2

theorem choice_getD_mem : ∀ {gs : List (List Int)} {c : List Int}, Choice gs c →
    ∀ {i : Nat}, i < gs.length → c.getD i 0 ∈ gs.getD i [] := by
  intro gs
  induction gs with
  | nil =>
    intro c _ i hi
    simp at hi
  | cons g gs ih =>
    intro c hch i hi
    rcases choice_cons.1 hch with ⟨v, c₂, hv, hc₂, rfl⟩
    cases i with
    | zero => simpa using hv
    | succ i₁ =>
      simp only [List.getD_cons_succ]
      exact ih hc₂ (by simpa using hi)

theorem getD_map_calculateCartesianSum :
    ∀ (m : List (List (List Int))) (i : Nat),
      (m.map calculateCartesianSum).getD i [] = calculateCartesianSum (m.getD i []) := by
  intro m
  induction m with
  | nil =>
    intro i
    simp [calculateCartesianSum]
  | cons it m ih =>
    intro i
    cases i with
    | zero => simp
    | succ i₁ => simpa using ih i₁

/-- Build a `Forall₂` against `(range n).map f` from a pointwise property at
`getD` indices. -/
theorem forall₂_map_range {β : Type _} {R : β → Int → Prop} :
    ∀ (n : Nat) (f : Nat → β) (c : List Int), c.length = n →
      (∀ i, i < n → R (f i) (c.getD i 0)) →
      List.Forall₂ R ((List.range n).map f) c := by
  intro n
  induction n with
  | zero =>
    intro f c hlen _
    have hc : c = [] := List.length_eq_zero.1 hlen
    subst hc
    simp only [List.range_zero, List.map_nil]
    exact List.Forall₂.nil
  | succ n ih =>
    intro f c hlen hall
    rcases c with _ | ⟨x, c₂⟩
    · simp at hlen
    · rw [List.range_succ_eq_map, List.map_cons, List.map_map]
      refine List.Forall₂.cons ?_ ?_
      · simpa using hall 0 (Nat.succ_pos n)
      · refine ih (f ∘ Nat.succ) c₂ (by simpa using hlen) ?_
        intro i hi
        simpa using hall (i + 1) (by omega)

/-- The reduced form of `updateStudentTotalScore` when results are present:
depending on whether the item-level search is empty, either no mutation or
the full assignment. -/
theorem updateStudentTotalScore_some_results (st : AppState) (id : Int)
    (sc : Int) (rand : Nat → Nat) (r : Results) (hr : st.results = some r) :
    updateStudentTotalScore st id (some sc) rand =
      if findItemCombinations sc r.itemResults = [] then st
      else
        { st with students := st.students.map (fun s =>
            if s.id = id then
              { s with
                totalScore := some sc,
                itemScores := selectBalancedCombination (rand 0)
                  (findItemCombinations sc r.itemResults),
                elementScores := (List.range (toInts st.items).length).map (fun i =>
                  selectBalancedCombination (rand (i + 1))
                    (findElementCombinations
                      ((selectBalancedCombination (rand 0)
                        (findItemCombinations sc r.itemResults)).getD i 0)
                      ((toInts st.items).getD i []))) }
            else s) } := by
  unfold updateStudentTotalScore
  rw [hr]

theorem updateStudentTotalScore_some_noResults (st : AppState) (id : Int)
    (sc : Int) (rand : Nat → Nat) (hr : st.results = none) :
    updateStudentTotalScore st id (some sc) rand =
      { st with students := st.students.map (fun s =>
          if s.id = id then
            { s with totalScore := none, itemScores := [], elementScores := [] }
          else s) } := by
  unfold updateStudentTotalScore
  rw [hr]

/-- Preservation of the invariant by `updateStudentTotalScore`, under the
precondition that any present results were computed from the current
(positive) hierarchy. -/
theorem updateStudentTotalScore_invariant (st : AppState) (id : Int)
    (score : Option Int) (rand : Nat → Nat)
    (hpos : HierarchyPositive st.items)
    (hres : ∀ r, st.results = some r → ResultsValid st.items r)
    (hinv : ∀ s ∈ st.students, StudentInvariant s) :
    ∀ s ∈ (updateStudentTotalScore st id score rand).students, StudentInvariant s := by
  cases score with
  | none =>
    intro s hs
    rcases List.mem_map.1 hs with ⟨s₀, hs₀, rfl⟩
    by_cases hid : s₀.id = id
    · rw [if_pos hid]
      exact studentInvariant_none rfl rfl rfl
    · rw [if_neg hid]
      exact hinv s₀ hs₀
  | some sc =>
    cases hr : st.results with
    | none =>
      rw [updateStudentTotalScore_some_noResults st id sc rand hr]
      intro s hs
      rcases List.mem_map.1 hs with ⟨s₀, hs₀, rfl⟩
      by_cases hid : s₀.id = id
      · rw [if_pos hid]
        exact studentInvariant_none rfl rfl rfl
      · rw [if_neg hid]
        exact hinv s₀ hs₀
    | some r =>
      have hrv := hres r hr
      rw [updateStudentTotalScore_some_results st id sc rand r hr]
      by_cases hempty : findItemCombinations sc r.itemResults = []
      · rw [if_pos hempty]
        exact hinv
      · rw [if_neg hempty]
        intro s hs
        rcases List.mem_map.1 hs with ⟨s₀, hs₀, rfl⟩
        by_cases hid : s₀.id = id
        · rw [if_pos hid]
          have hselmem := selectBalanced_mem (rand 0) _ hempty
          rcases findItemCombinations_sound hselmem with ⟨hch, hsum⟩
          refine studentInvariant_some rfl hsum ?_
          have hlen_r : r.itemResults.length = (toInts st.items).length := by
            rw [hrv.1, List.length_map]
          have hlen_s : (selectBalancedCombination (rand 0)
              (findItemCombinations sc r.itemResults)).length =
              (toInts st.items).length :=
            (choice_length hch).trans hlen_r
          refine forall₂_map_range _ _ _ hlen_s ?_
          intro i hi
          apply selectBalanced_findElement_sum
          · intro g hg v hv
            exact toInts_pos hpos _ (getD_mem_of_lt hi) g hg v hv
          · have hi_r : i < r.itemResults.length := by
              rw [hlen_r]
              exact hi
            have hritem : r.itemResults.getD i [] =
                calculateCartesianSum ((toInts st.items).getD i []) := by
              rw [hrv.1]
              exact getD_map_calculateCartesianSum (toInts st.items) i
            rw [← hritem]
            exact choice_getD_mem hch hi_r
        · rw [if_neg hid]
          exact hinv s₀ hs₀

theorem addStudent_invariant (st : AppState)
    (hinv : ∀ s ∈ st.students, StudentInvariant s) :
    ∀ s ∈ (addStudent st).students, StudentInvariant s := by
  intro s hs
  rcases List.mem_append.1 hs with hs | hs
  · exact hinv s hs
  · rcases List.mem_singleton.1 hs with rfl
    exact studentInvariant_none rfl rfl rfl

theorem calculateCombinations_invariant (st : AppState)
    (hinv : ∀ s ∈ st.students, StudentInvariant s) :
    ∀ s ∈ (calculateCombinations st).students, StudentInvariant s := by
  intro s hs
  unfold calculateCombinations at hs
  cases hv : validate st.items with
  | some e =>
    rw [hv] at hs
    exact hinv s hs
  | none =>
    rw [hv] at hs
    simp at hs

/-- The student-record operations of claim C4: adding a student, assigning
or unsetting a total score, recomputing results. -/
inductive RecordOp
  | addStudentOp
  | updateTotal (id : Int) (score : Option Int) (rand : Nat → Nat)
  | recompute

/-- Dispatch a record operation. -/
def applyRecordOp : RecordOp → AppState → AppState
  | .addStudentOp, st => addStudent st
  | .updateTotal id score rand, st => updateStudentTotalScore st id score rand
  | .recompute, st => calculateCombinations st

/-- C4: every student-record operation — adding a student, assigning or
unsetting a total score via `updateStudentTotalScore` (for every random
draw), recomputing results — preserves the StudentRecord invariant, given
that any present Results were computed from the current hierarchy of
positive values and the invariant held before. -/
theorem student_record_invariant_preserved (op : RecordOp) (st : AppState)
    (hpos : HierarchyPositive st.items)
    (hres : ∀ r, st.results = some r → ResultsValid st.items r)
    (hinv : ∀ s ∈ st.students, StudentInvariant s) :
    ∀ s ∈ (applyRecordOp op st).students, StudentInvariant s := by
  cases op with
  | addStudentOp => exact addStudent_invariant st hinv
  | updateTotal id score rand =>
    exact updateStudentTotalScore_invariant st id score rand hpos hres hinv
  | recompute => exact calculateCombinations_invariant st hinv

/-- A state whose results match its (positive) hierarchy, with one fresh
student. -/
def stC4 : AppState :=
  { items := [[[some 1], [some 2]]],
    results := some { itemResults := [[3]], totalResult := [3] },
    error := none,
    students := [{ id := 1, name := "a", totalScore := none,
                   itemScores := [], elementScores := [] }],
    nextStudentId := 2 }

/-- Witness for C4: assigning total score 3 on a valid state keeps the
(unique, hence first) student record invariant. -/
theorem student_record_invariant_preserved_witness :
    StudentInvariant
      ((applyRecordOp (.updateTotal 1 (some 3) (fun _ => 0)) stC4).students.headD
        { id := 0, name := "", totalScore := none, itemScores := [],
          elementScores := [] }) :=
  student_record_invariant_preserved (.updateTotal 1 (some 3) (fun _ => 0)) stC4
    (by decide)
    (fun r h => by
      rw [← Option.some.inj h]
      exact ⟨by decide, by decide⟩)
    (by
      intro s hs
      rcases List.mem_singleton.1 hs with rfl
      exact studentInvariant_none rfl rfl rfl)
    _ (by decide)

end Sumway
